import Mathlib

/-!
Verification of the diffty review-tracking core: a shallow embedding of the
diff-to-review aggregation engine (file extraction from unified-diff text,
per-file status derivation, list ordering) and of the JSON ledger store
(identity scheme, load/save, decision recording), with theorems settling the
specification claims.

Go strings are modelled as Lean `String` (splitting and comparison happen at
the character level; all separators involved are ASCII, for which Go's
byte-level operations and UTF-8 codepoint-level operations coincide, and
UTF-8 byte order coincides with codepoint order). Go maps with string keys
are modelled as association lists with unique keys updated in place
(`alInsert` / `alLookup`), which reproduces Go map get/set semantics; the
places where the Go code iterates over a map only compute
iteration-order-independent data (existence of a value). The filesystem is
modelled as an association list from file paths to stored ledger documents;
JSON marshalling of a `ReviewState` followed by unmarshalling is the
identity on the model (the struct contains only strings, string maps and
slices).
-/

namespace Diffty

/-- Association-list insert modelling a Go map assignment `m[k] = v`:
replaces the value at the first occurrence of the key, otherwise appends. -/
def alInsert {α : Type} (k : String) (v : α) : List (String × α) → List (String × α)
  | [] => [(k, v)]
  | (k', v') :: rest => if k' = k then (k, v) :: rest else (k', v') :: alInsert k v rest

/-- Association-list lookup modelling a Go map read `v, ok := m[k]`. -/
def alLookup {α : Type} (k : String) : List (String × α) → Option α
  | [] => none
  | (k', v) :: rest => if k' = k then some v else alLookup k rest

/-- The Decision literal written by `models.StateApproved`. -/
def StateApproved : String := "approved"

/-- The Decision literal written by `models.StateRejected`. -/
def StateRejected : String := "rejected"

/-- The Decision literal written by `models.StateSkipped`. -/
def StateSkipped : String := "skipped"

/-- The closed set of valid Decision values. -/
def decisionLiterals : List String := [StateApproved, StateRejected, StateSkipped]

/-- The `models.FileReview` struct: repo, path, and the `lines` map from a
range token to a decision string (`map[string]string` in Go, modelled as an
association list with unique keys). -/
structure FileReview where
  repo : String
  path : String
  lines : List (String × String)
deriving DecidableEq, Repr

/-- The `models.ReviewState` struct (the review ledger). -/
structure ReviewState where
  reviewedFiles : List FileReview
  sourceBranch : String
  targetBranch : String
  sourceCommit : String
  targetCommit : String
deriving DecidableEq, Repr

/-- Go `strings.Split` on a one-character separator, at the character level.
Splitting an empty list yields one empty piece, as in Go. -/
def splitSep (sep : Char) : List Char → List (List Char)
  | [] => [[]]
  | c :: cs =>
    if c = sep then [] :: splitSep sep cs
    else
      match splitSep sep cs with
      | [] => [[c]]
      | s :: rest => (c :: s) :: rest

/-- The diff file-header marker tested by
`strings.HasPrefix(line, "diff --git ")` in `extractFilesFromDiff`. -/
def diffHeaderMarker : List Char := "diff --git ".data

/-- The per-line body of the file-extraction loop of `extractFilesFromDiff`:
for a line starting with the header marker, split on single spaces; if there
are at least four pieces and the fourth piece starts with "b/", emit the
fourth piece without that two-character marker; otherwise emit nothing. -/
def headerPath (line : List Char) : Option (List Char) :=
  if diffHeaderMarker.isPrefixOf line then
    match splitSep ' ' line with
    | _ :: _ :: _ :: bPath :: _ =>
      if ['b', '/'].isPrefixOf bPath then some (bPath.drop 2) else none
    | _ => none
  else none

/-- The per-review status computation inside `extractFilesFromDiff`: scan the
values of the `lines` map setting the approved/rejected/skipped flags, then
pick by priority rejected, approved, skipped, defaulting to "unreviewed". -/
def fileReviewStatus (review : FileReview) : String :=
  let approved := review.lines.any fun kv => kv.2 == StateApproved
  let rejected := review.lines.any fun kv => kv.2 == StateRejected
  let skipped := review.lines.any fun kv => kv.2 == StateSkipped
  if rejected then StateRejected
  else if approved then StateApproved
  else if skipped then StateSkipped
  else "unreviewed"

/-- The `fileStatusMap` construction of `extractFilesFromDiff`: iterate over
`reviewState.ReviewedFiles` in slice order, skip reviews of other
repositories, and assign `fileStatusMap[review.Path] = status`. -/
def buildFileStatusMap (reviews : List FileReview) (repoPath : String) :
    List (String × String) :=
  reviews.foldl
    (fun m review =>
      if review.repo = repoPath then alInsert review.path (fileReviewStatus review) m
      else m)
    []

/-- The `statusPriority` table of the sort comparator in
`extractFilesFromDiff`; statuses outside the table get the Go zero value 0. -/
def statusPriority (s : String) : Nat :=
  if s = "unreviewed" then 0
  else if s = StateSkipped then 1
  else if s = StateRejected then 2
  else if s = StateApproved then 3
  else 0

/-- Strict lexicographic order on character lists: Go's `<` on strings
(byte-lexicographic, which for UTF-8 equals codepoint-lexicographic). -/
def listLT : List Char → List Char → Bool
  | [], [] => false
  | [], _ :: _ => true
  | _ :: _, [] => false
  | a :: as, b :: bs => if a < b then true else if b < a then false else listLT as bs

/-- The total preorder induced by the `sort.Slice` comparator of
`extractFilesFromDiff`: ascending status priority, then ascending path.
`a` may come before `b` exactly when the strict comparator does not place
`b` before `a`. -/
def fileLE (a b : String × String) : Prop :=
  statusPriority a.2 < statusPriority b.2 ∨
    (statusPriority a.2 = statusPriority b.2 ∧ listLT b.1.data a.1.data = false)

instance : DecidableRel fileLE := by
  intro a b
  unfold fileLE
  infer_instance

/-- The `extractFilesFromDiff` function of the server package: build the
status map from the ledger, scan the diff lines emitting (path, status)
entries (status defaulting to "unreviewed" when the path is not in the map),
and sort by status priority then path. Each emitted entry is the Go
`map[string]string{"Path": ..., "Status": ...}` modelled as a pair.
`sort.Slice` with this comparator is modelled by a deterministic sort with
the induced total preorder: the comparator is total and any two entries it
ties agree in both components (tied entries share the path, hence also the
status looked up for that path), so every correct sort produces the same
list. -/
def extractFilesFromDiff (diffText : String) (reviewState : ReviewState)
    (repoPath : String) : List (String × String) :=
  let lines := splitSep '\n' diffText.data
  let fileStatusMap := buildFileStatusMap reviewState.reviewedFiles repoPath
  let files := lines.filterMap fun line =>
    (headerPath line).map fun p =>
      let filePath := String.mk p
      (filePath, (alLookup filePath fileStatusMap).getD "unreviewed")
  List.insertionSort fileLE files

/-- The per-selected-file status computation of `handleDiffView`: find the
first review matching the requested path and repository, collect the set of
distinct values of its `lines` map, and report the single value when the set
is a singleton, "mixed" when it has more than one element, and "unreviewed"
otherwise (no matching review, or an empty map). The set of distinct values
is modelled by the `statuses` map of the code: an association list over the
values in order of first occurrence. -/
def selectedFileStatus (reviewState : ReviewState) (repoPath filePath : String) : String :=
  match reviewState.reviewedFiles.find? fun r => r.path == filePath && r.repo == repoPath with
  | none => "unreviewed"
  | some review =>
    let statuses := review.lines.foldl (fun m kv => alInsert kv.2 true m) []
    match statuses with
    | [] => "unreviewed"
    | [(status, _)] => status
    | _ => "mixed"

/-- Go `strings.Join` with a one-character separator, at the character
level. -/
def joinSep (sep : Char) : List (List Char) → List Char
  | [] => []
  | [s] => s
  | s :: rest => s ++ sep :: joinSep sep rest

/-- One step of Go `path/filepath.Clean` (unix separators): process one
path segment against the output stack (held in reverse). Empty and "."
segments are dropped; ".." pops a poppable component, is dropped at the
root, and accumulates otherwise; any other segment is pushed. -/
def cleanStep (rooted : Bool) (stack : List (List Char)) (seg : List Char) :
    List (List Char) :=
  if seg = [] ∨ seg = ['.'] then stack
  else if seg = ['.', '.'] then
    match stack with
    | [] => if rooted then [] else [seg]
    | top :: rest => if top = ['.', '.'] then seg :: stack else rest
  else seg :: stack

/-- Whether a character list denotes a rooted (absolute) unix path. -/
def isRooted : List Char → Bool
  | '/' :: _ => true
  | _ => false

/-- Go `path/filepath.Clean` for unix separators, at the character level. -/
def pathCleanChars (cs : List Char) : List Char :=
  let rooted := isRooted cs
  let segs := splitSep '/' cs
  let out := (segs.foldl (cleanStep rooted) []).reverse
  if rooted then '/' :: joinSep '/' out
  else if out = [] then ['.']
  else joinSep '/' out

/-- Go `path/filepath.Clean` for unix separators. -/
def pathClean (s : String) : String :=
  String.mk (pathCleanChars s.data)

/-- Go `path/filepath.Join` for unix separators: drop empty elements, join
the rest with "/", and clean the result; all-empty input yields "". -/
def filepathJoin (elems : List String) : String :=
  let nonEmpty := elems.filter fun e => e != ""
  if nonEmpty = [] then ""
  else pathClean (String.mk (joinSep '/' (nonEmpty.map String.data)))

/-- The path-safe repository token of `getReviewStatePath`:
`strings.ReplaceAll(repoPath, string(os.PathSeparator), "_")` followed by
`strings.ReplaceAll(·, ":", "_")`, with the unix path separator. Both
patterns are single characters and the replacement is neither, so the two
sequential whole-string replacements are the two character maps below. -/
def pathSafe (repoPath : String) : String :=
  String.mk
    ((repoPath.data.map fun c => if c = '/' then '_' else c).map
      fun c => if c = ':' then '_' else c)

/-- The `storage.JSONStorage` struct (the directory-creation side effects of
the Go code are not part of the functional model). -/
structure JSONStorage where
  baseStoragePath : String
  reposPath : String
deriving DecidableEq, Repr

/-- `storage.getReviewStatePath`: the storage location of a ledger,
`Join(baseStoragePath, safeRepoPath, sourceCommit, targetCommit)` followed
by `Join(reviewDir, "review-state.json")`. -/
def getReviewStatePath (s : JSONStorage) (repoPath sourceCommit targetCommit : String) :
    String :=
  let safeRepoPath := pathSafe repoPath
  let reviewDir := filepathJoin [s.baseStoragePath, safeRepoPath, sourceCommit, targetCommit]
  filepathJoin [reviewDir, "review-state.json"]

/-- The persisted filesystem state: an association list from file paths to
stored ledger documents. A stored document is modelled as the
`ReviewState` value itself (JSON marshal/unmarshal round-trips this struct
identically; note the `lines` values are arbitrary strings, so documents
with out-of-set decision values are representable). -/
abbrev Store := List (String × ReviewState)

/-- The freshly-initialized empty ledger built by `LoadReviewState` when no
persisted state exists. -/
def emptyReviewState (sourceBranch targetBranch sourceCommit targetCommit : String) :
    ReviewState :=
  { reviewedFiles := [], sourceBranch, targetBranch, sourceCommit, targetCommit }

/-- `storage.JSONStorage.SaveReviewState`: reject a state with an empty
source or target commit before touching storage, otherwise write the
marshalled state at its derived path. -/
def SaveReviewState (s : JSONStorage) (store : Store) (state : ReviewState)
    (repoPath : String) : Except String Store :=
  if state.sourceCommit = "" ∨ state.targetCommit = "" then
    Except.error "source and target commit hashes are required"
  else
    Except.ok
      (alInsert (getReviewStatePath s repoPath state.sourceCommit state.targetCommit)
        state store)

/-- `storage.JSONStorage.LoadReviewState`: an empty source or target commit
short-circuits to a fresh empty state; a missing file yields a fresh empty
state; otherwise the stored document is unmarshalled and returned with no
further validation. -/
def LoadReviewState (s : JSONStorage) (store : Store)
    (repoPath sourceBranch targetBranch sourceCommit targetCommit : String) :
    Except String ReviewState :=
  if sourceCommit = "" ∨ targetCommit = "" then
    Except.ok (emptyReviewState sourceBranch targetBranch sourceCommit targetCommit)
  else
    match alLookup (getReviewStatePath s repoPath sourceCommit targetCommit) store with
    | none => Except.ok (emptyReviewState sourceBranch targetBranch sourceCommit targetCommit)
    | some state => Except.ok state

/-- The update loop of `handleReviewState`: find the first review matching
the path and repository and set its "all" entry, returning `none` when no
review matches. -/
def setAllEntry (repoPath filePath status : String) :
    List FileReview → Option (List FileReview)
  | [] => none
  | r :: rest =>
    if r.path = filePath ∧ r.repo = repoPath then
      some ({ r with lines := alInsert "all" status r.lines } :: rest)
    else
      (setAllEntry repoPath filePath status rest).map fun rs => r :: rs

/-- The review-state mutation of `handleReviewState` (after its parameter
and status validation): overwrite the "all" entry of the first matching
review, or append a new review with a single "all" entry. -/
def recordDecision (state : ReviewState) (repoPath filePath status : String) :
    ReviewState :=
  match setAllEntry repoPath filePath status state.reviewedFiles with
  | some rs => { state with reviewedFiles := rs }
  | none =>
    { state with
      reviewedFiles :=
        state.reviewedFiles ++
          [{ repo := repoPath, path := filePath, lines := [("all", status)] }] }

/-- The first review matching a path and repository, with the match
condition of `handleReviewState` and `handleDiffView`. -/
def findReview (reviews : List FileReview) (repoPath filePath : String) :
    Option FileReview :=
  reviews.find? fun r => r.path == filePath && r.repo == repoPath

/-- The last review matching a path and repository: the one whose status
survives in `fileStatusMap`, whose construction overwrites earlier
assignments to the same path. -/
def lastMatching (repoPath filePath : String) (reviews : List FileReview) :
    Option FileReview :=
  reviews.foldl
    (fun acc r => if r.repo = repoPath ∧ r.path = filePath then some r else acc) none

/-- A ledger respects the data-model invariant for a repository when any two
of its reviews for that repository with the same path coincide. -/
def UniqueReviews (st : ReviewState) (repoPath : String) : Prop :=
  ∀ r₁ ∈ st.reviewedFiles, ∀ r₂ ∈ st.reviewedFiles,
    r₁.repo = repoPath → r₂.repo = repoPath → r₁.path = r₂.path → r₁ = r₂

instance (st : ReviewState) (repoPath : String) : Decidable (UniqueReviews st repoPath) := by
  unfold UniqueReviews
  infer_instance

/-- A plain path segment: non-empty, free of the separator, and not one of
the two special dot segments treated by path cleaning. -/
def PlainSeg (s : List Char) : Prop :=
  s ≠ [] ∧ '/' ∉ s ∧ s ≠ ['.'] ∧ s ≠ ['.', '.']

instance (s : List Char) : Decidable (PlainSeg s) := by
  unfold PlainSeg
  infer_instance

/-- A well-formed diff file-header line, in the words of the specification:
it starts with the header marker, has at least four space-separated pieces,
and its fourth piece starts with the two-character "b/" marker. -/
def WellFormedHeader (line : List Char) : Prop :=
  diffHeaderMarker.isPrefixOf line = true ∧
    ∃ t, (splitSep ' ' line).get? 3 = some t ∧ ['b', '/'].isPrefixOf t = true

instance (line : List Char) : Decidable (WellFormedHeader line) :=
  match h : (splitSep ' ' line).get? 3 with
  | none =>
    isFalse fun hc => by
      rcases hc with ⟨_, t, ht, _⟩
      rw [h] at ht
      cases ht
  | some t =>
    if hp : diffHeaderMarker.isPrefixOf line = true ∧ ['b', '/'].isPrefixOf t = true then
      isTrue ⟨hp.1, t, h, hp.2⟩
    else
      isFalse fun hc => by
        rcases hc with ⟨h1, t', ht', h2⟩
        rw [h] at ht'
        cases ht'
        exact hp ⟨h1, h2⟩

instance {ε α : Type} [DecidableEq ε] [DecidableEq α] : DecidableEq (Except ε α) :=
  fun a b =>
    match a, b with
    | Except.ok x, Except.ok y =>
      if h : x = y then isTrue (by rw [h]) else isFalse (by intro hc; cases hc; exact h rfl)
    | Except.error x, Except.error y =>
      if h : x = y then isTrue (by rw [h]) else isFalse (by intro hc; cases hc; exact h rfl)
    | Except.ok _, Except.error _ => isFalse (by intro hc; cases hc)
    | Except.error _, Except.ok _ => isFalse (by intro hc; cases hc)

/-! ### Association-list lemmas -/

theorem alLookup_alInsert_self {α : Type} (k : String) (v : α) (m : List (String × α)) :
    alLookup k (alInsert k v m) = some v := by
  induction m with
  | nil => simp [alInsert, alLookup]
  | cons kv rest ih =>
    obtain ⟨k', v'⟩ := kv
    by_cases h : k' = k
    · simp [alInsert, alLookup, h]
    · simp [alInsert, alLookup, h, ih]

theorem alLookup_alInsert_ne {α : Type} (k q : String) (v : α) (m : List (String × α))
    (h : q ≠ k) : alLookup q (alInsert k v m) = alLookup q m := by
  have hkq : k ≠ q := fun hc => h hc.symm
  induction m with
  | nil => simp [alInsert, alLookup, hkq]
  | cons kv rest ih =>
    obtain ⟨k', v'⟩ := kv
    by_cases hk : k' = k
    · subst hk
      simp [alInsert, alLookup, hkq]
    · simp only [alInsert, alLookup, if_neg hk]
      by_cases hq : k' = q
      · simp [alLookup, hq]
      · simp [alLookup, hq, ih]

/-! ### Lexicographic order on character lists -/

theorem charEqOfNotLt {a b : Char} (h1 : ¬a < b) (h2 : ¬b < a) : a = b :=
  le_antisymm (le_of_not_lt h2) (le_of_not_lt h1)

theorem listLT_asymm : ∀ a b : List Char, listLT a b = true → listLT b a = false
  | [], [] => by intro h; cases h
  | [], _ :: _ => by intro _; rfl
  | _ :: _, [] => by intro h; cases h
  | a :: as, b :: bs => by
    intro h
    simp only [listLT] at h ⊢
    by_cases hab : a < b
    · rw [if_neg (asymm hab), if_pos hab]
    · by_cases hba : b < a
      · rw [if_neg hab, if_pos hba] at h
        cases h
      · rw [if_neg hba, if_neg hab]
        rw [if_neg hab, if_neg hba] at h
        exact listLT_asymm as bs h

theorem listLT_trans :
    ∀ a b c : List Char, listLT a b = true → listLT b c = true → listLT a c = true
  | _, [], [] => by intro _ h2; cases h2
  | _, _ :: _, [] => by intro _ h2; cases h2
  | [], _, _ :: _ => by intro _ _; rfl
  | a :: as, [], c :: cs => by intro h1 _; cases h1
  | a :: as, b :: bs, c :: cs => by
    intro h1 h2
    simp only [listLT] at h1 h2 ⊢
    by_cases hab : a < b
    · by_cases hbc : b < c
      · rw [if_pos (lt_trans hab hbc)]
      · by_cases hcb : c < b
        · rw [if_neg hbc, if_pos hcb] at h2
          cases h2
        · have hbceq : b = c := charEqOfNotLt hbc hcb
          rw [if_pos (show a < c by rw [← hbceq]; exact hab)]
    · by_cases hba : b < a
      · rw [if_neg hab, if_pos hba] at h1
        cases h1
      · have habeq : a = b := charEqOfNotLt hab hba
        by_cases hbc : b < c
        · rw [if_pos (show a < c by rw [habeq]; exact hbc)]
        · by_cases hcb : c < b
          · rw [if_neg hbc, if_pos hcb] at h2
            cases h2
          · have hbceq : b = c := charEqOfNotLt hbc hcb
            have haceq : a = c := habeq.trans hbceq
            rw [if_neg hab, if_neg hba] at h1
            rw [if_neg hbc, if_neg hcb] at h2
            rw [haceq, if_neg (lt_irrefl c), if_neg (lt_irrefl c)]
            exact listLT_trans as bs cs h1 h2

theorem listLT_connex :
    ∀ a b : List Char, listLT a b = false → listLT b a = false → a = b
  | [], [] => by intro _ _; rfl
  | [], _ :: _ => by intro h1 _; cases h1
  | _ :: _, [] => by intro _ h2; cases h2
  | a :: as, b :: bs => by
    intro h1 h2
    simp only [listLT] at h1 h2
    by_cases hab : a < b
    · rw [if_pos hab] at h1
      cases h1
    · by_cases hba : b < a
      · rw [if_pos hba] at h2
        cases h2
      · have habeq : a = b := charEqOfNotLt hab hba
        rw [if_neg hab, if_neg hba] at h1
        rw [if_neg hba, if_neg hab] at h2
        rw [habeq, listLT_connex as bs h1 h2]

theorem listLT_le_trans {a b c : List Char} (h1 : listLT b a = false)
    (h2 : listLT c b = false) : listLT c a = false := by
  cases hca : listLT c a with
  | false => rfl
  | true =>
    cases hab : listLT a b with
    | true =>
      have := listLT_trans c a b hca hab
      rw [this] at h2
      cases h2
    | false =>
      obtain rfl : a = b := listLT_connex a b hab h1
      rw [hca] at h2
      cases h2

instance : IsTrans (String × String) fileLE := by
  constructor
  intro a b c h1 h2
  rcases h1 with h1 | ⟨h1, h1p⟩ <;> rcases h2 with h2 | ⟨h2, h2p⟩
  · exact Or.inl (lt_trans h1 h2)
  · exact Or.inl (h2 ▸ h1)
  · exact Or.inl (h1 ▸ h2)
  · exact Or.inr ⟨h1.trans h2, listLT_le_trans h1p h2p⟩

instance : IsTotal (String × String) fileLE := by
  constructor
  intro a b
  rcases Nat.lt_trichotomy (statusPriority a.2) (statusPriority b.2) with h | h | h
  · exact Or.inl (Or.inl h)
  · cases hb : listLT b.1.data a.1.data with
    | false => exact Or.inl (Or.inr ⟨h, hb⟩)
    | true => exact Or.inr (Or.inr ⟨h.symm, listLT_asymm _ _ hb⟩)
  · exact Or.inr (Or.inl h)

/-! ### Characterizing the file-status map -/

theorem lastMatching_foldl_acc (repoPath filePath : String) (reviews : List FileReview) :
    ∀ acc : Option FileReview,
      reviews.foldl
          (fun acc r => if r.repo = repoPath ∧ r.path = filePath then some r else acc) acc =
        match lastMatching repoPath filePath reviews with
        | some x => some x
        | none => acc := by
  induction reviews with
  | nil => intro acc; rfl
  | cons r rest ih =>
    intro acc
    rw [List.foldl_cons, ih]
    have hR : lastMatching repoPath filePath (r :: rest) =
        match lastMatching repoPath filePath rest with
        | some x => some x
        | none => if r.repo = repoPath ∧ r.path = filePath then some r else none := by
      conv_lhs => unfold lastMatching
      rw [List.foldl_cons, ih]
    rw [hR]
    cases lastMatching repoPath filePath rest with
    | some x => rfl
    | none =>
      by_cases h : r.repo = repoPath ∧ r.path = filePath
      · rw [if_pos h, if_pos h]
      · rw [if_neg h, if_neg h]

theorem lastMatching_cons (repoPath filePath : String) (r : FileReview)
    (rest : List FileReview) :
    lastMatching repoPath filePath (r :: rest) =
      match lastMatching repoPath filePath rest with
      | some x => some x
      | none => if r.repo = repoPath ∧ r.path = filePath then some r else none := by
  unfold lastMatching
  rw [List.foldl_cons]
  exact lastMatching_foldl_acc repoPath filePath rest _

theorem lastMatching_eq_none (repoPath filePath : String) :
    ∀ reviews : List FileReview,
      lastMatching repoPath filePath reviews = none ↔
        ∀ r ∈ reviews, ¬(r.repo = repoPath ∧ r.path = filePath)
  | [] => by simp [lastMatching]
  | r :: rest => by
    rw [lastMatching_cons]
    constructor
    · intro h
      cases hrest : lastMatching repoPath filePath rest with
      | some x => rw [hrest] at h; cases h
      | none =>
        rw [hrest] at h
        intro x hx
        rw [List.mem_cons] at hx
        rcases hx with rfl | hx
        · intro hc
          rw [if_pos hc] at h
          cases h
        · exact ((lastMatching_eq_none repoPath filePath rest).1 hrest) x hx
    · intro h
      have hrest : lastMatching repoPath filePath rest = none :=
        (lastMatching_eq_none repoPath filePath rest).2 fun x hx =>
          h x (List.mem_cons_of_mem _ hx)
      rw [hrest, if_neg (h r (List.mem_cons_self _ _))]

theorem lastMatching_eq_some (repoPath filePath : String) :
    ∀ (reviews : List FileReview) (r : FileReview),
      lastMatching repoPath filePath reviews = some r →
        r ∈ reviews ∧ r.repo = repoPath ∧ r.path = filePath
  | [], r => by intro h; cases h
  | x :: rest, r => by
    intro h
    rw [lastMatching_cons] at h
    cases hrest : lastMatching repoPath filePath rest with
    | some y =>
      rw [hrest] at h
      cases h
      have := lastMatching_eq_some repoPath filePath rest r hrest
      exact ⟨List.mem_cons_of_mem _ this.1, this.2⟩
    | none =>
      rw [hrest] at h
      by_cases hx : x.repo = repoPath ∧ x.path = filePath
      · rw [if_pos hx] at h
        cases h
        exact ⟨List.mem_cons_self _ _, hx⟩
      · rw [if_neg hx] at h
        cases h

theorem lastMatching_filter_other (repoPath q rPath : String) :
    ∀ reviews : List FileReview, q ≠ rPath →
      lastMatching repoPath q
          (reviews.filter fun x => !(x.repo == repoPath && x.path == rPath)) =
        lastMatching repoPath q reviews
  | [] => fun _ => rfl
  | x :: rest => fun hq => by
    rw [List.filter_cons]
    by_cases hkeep : (!(x.repo == repoPath && x.path == rPath)) = true
    · rw [if_pos hkeep, lastMatching_cons, lastMatching_cons,
        lastMatching_filter_other repoPath q rPath rest hq]
    · rw [if_neg hkeep]
      have hx : x.repo = repoPath ∧ x.path = rPath := by
        have hx' : (x.repo == repoPath && x.path == rPath) = true := by
          revert hkeep
          cases x.repo == repoPath && x.path == rPath <;> simp
        rw [Bool.and_eq_true, beq_iff_eq, beq_iff_eq] at hx'
        exact hx'
      rw [lastMatching_filter_other repoPath q rPath rest hq, lastMatching_cons]
      have hnot : ¬(x.repo = repoPath ∧ x.path = q) := by
        intro hc
        exact hq (by rw [← hc.2, hx.2])
      cases lastMatching repoPath q rest with
      | some y => rfl
      | none => rw [if_neg hnot]

theorem buildFileStatusMap_lookup (repoPath filePath : String) :
    ∀ (reviews : List FileReview) (m : List (String × String)),
      alLookup filePath
          (reviews.foldl
            (fun m review =>
              if review.repo = repoPath then
                alInsert review.path (fileReviewStatus review) m
              else m)
            m) =
        match lastMatching repoPath filePath reviews with
        | some r => some (fileReviewStatus r)
        | none => alLookup filePath m
  | [], m => rfl
  | r :: rest, m => by
    rw [List.foldl_cons, buildFileStatusMap_lookup repoPath filePath rest, lastMatching_cons]
    cases hrest : lastMatching repoPath filePath rest with
    | some x => rfl
    | none =>
      by_cases hmatch : r.repo = repoPath ∧ r.path = filePath
      · rw [if_pos hmatch, if_pos hmatch.1, hmatch.2, alLookup_alInsert_self]
      · rw [if_neg hmatch]
        by_cases hrepo : r.repo = repoPath
        · have hpath : r.path ≠ filePath := fun hc => hmatch ⟨hrepo, hc⟩
          rw [if_pos hrepo, alLookup_alInsert_ne _ _ _ _ (fun hc => hpath hc.symm)]
        · rw [if_neg hrepo]

theorem buildFileStatusMap_eq (reviews : List FileReview) (repoPath filePath : String) :
    alLookup filePath (buildFileStatusMap reviews repoPath) =
      (lastMatching repoPath filePath reviews).map fileReviewStatus := by
  unfold buildFileStatusMap
  rw [buildFileStatusMap_lookup]
  cases lastMatching repoPath filePath reviews <;> rfl

/-! ### Extraction lemmas -/

theorem extractFilesFromDiff_eq (d : String) (st : ReviewState) (repoPath : String) :
    extractFilesFromDiff d st repoPath =
      List.insertionSort fileLE
        ((splitSep '\n' d.data).filterMap fun line =>
          (headerPath line).map fun p =>
            (String.mk p,
              (alLookup (String.mk p) (buildFileStatusMap st.reviewedFiles repoPath)).getD
                "unreviewed")) := rfl

theorem mem_extract_status (d : String) (st : ReviewState) (repoPath p s : String)
    (h : (p, s) ∈ extractFilesFromDiff d st repoPath) :
    s = (alLookup p (buildFileStatusMap st.reviewedFiles repoPath)).getD "unreviewed" := by
  rw [extractFilesFromDiff_eq, List.mem_insertionSort, List.mem_filterMap] at h
  obtain ⟨line, _, hsome⟩ := h
  cases hh : headerPath line with
  | none => rw [hh] at hsome; cases hsome
  | some t =>
    rw [hh] at hsome
    injection hsome with heq
    rw [Prod.ext_iff] at heq
    obtain ⟨hp, hs⟩ := heq
    simp only at hp hs
    subst hp
    exact hs.symm

theorem extract_emits (d : String) (st : ReviewState) (repoPath : String)
    (line : List Char) (t : List Char) (hline : line ∈ splitSep '\n' d.data)
    (hh : headerPath line = some t) :
    (String.mk t,
        (alLookup (String.mk t) (buildFileStatusMap st.reviewedFiles repoPath)).getD
          "unreviewed") ∈
      extractFilesFromDiff d st repoPath := by
  rw [extractFilesFromDiff_eq, List.mem_insertionSort, List.mem_filterMap]
  exact ⟨line, hline, by rw [hh]; rfl⟩

theorem extract_congr (d : String) (st₁ st₂ : ReviewState) (repoPath : String)
    (h : ∀ q : String,
      (alLookup q (buildFileStatusMap st₁.reviewedFiles repoPath)).getD "unreviewed" =
        (alLookup q (buildFileStatusMap st₂.reviewedFiles repoPath)).getD "unreviewed") :
    extractFilesFromDiff d st₁ repoPath = extractFilesFromDiff d st₂ repoPath := by
  rw [extractFilesFromDiff_eq, extractFilesFromDiff_eq]
  congr 1
  apply List.filterMap_congr
  intro line _
  cases headerPath line with
  | none => rfl
  | some t => simp only [Option.map_some', h (String.mk t)]

/-! ### Facts about the per-review status -/

theorem fileReviewStatus_cases (review : FileReview) :
    fileReviewStatus review = StateRejected ∨ fileReviewStatus review = StateApproved ∨
      fileReviewStatus review = StateSkipped ∨ fileReviewStatus review = "unreviewed" := by
  unfold fileReviewStatus
  dsimp only
  split_ifs <;> simp

theorem fileReviewStatus_ne_mixed (review : FileReview) :
    fileReviewStatus review ≠ "mixed" := by
  rcases fileReviewStatus_cases review with h | h | h | h <;> rw [h] <;> decide

theorem fileReviewStatus_no_decision (review : FileReview)
    (h : ∀ kv ∈ review.lines, kv.2 ∉ decisionLiterals) :
    fileReviewStatus review = "unreviewed" := by
  unfold fileReviewStatus
  have hnot : ∀ v ∈ decisionLiterals, review.lines.any (fun kv => kv.2 == v) = false := by
    intro v hv
    rw [List.any_eq_false]
    intro kv hkv
    simp only [beq_iff_eq]
    intro hc
    exact h kv hkv (hc ▸ hv)
  dsimp only
  rw [hnot StateApproved (by decide), hnot StateRejected (by decide),
    hnot StateSkipped (by decide)]
  rfl

theorem fileReviewStatus_single (review : FileReview) (v : String)
    (hv : v ∈ decisionLiterals) (hex : ∃ kv ∈ review.lines, kv.2 = v)
    (hall : ∀ kv ∈ review.lines, kv.2 ∈ decisionLiterals → kv.2 = v) :
    fileReviewStatus review = v := by
  have hany : review.lines.any (fun kv => kv.2 == v) = true := by
    rw [List.any_eq_true]
    obtain ⟨kv, hkv, hkv2⟩ := hex
    exact ⟨kv, hkv, by simp [hkv2]⟩
  have hother : ∀ w, w ∈ decisionLiterals → w ≠ v →
      review.lines.any (fun kv => kv.2 == w) = false := by
    intro w hw hwv
    rw [List.any_eq_false]
    intro kv hkv
    simp only [beq_iff_eq]
    intro hc
    exact hwv (hc ▸ hall kv hkv (hc ▸ hw))
  unfold fileReviewStatus
  dsimp only
  simp only [decisionLiterals, List.mem_cons, List.not_mem_nil, or_false] at hv
  rcases hv with hv | hv | hv
  · subst hv
    rw [hother StateRejected (by decide) (by decide), hany]
    simp
  · subst hv
    rw [hany]
    simp
  · subst hv
    rw [hother StateRejected (by decide) (by decide),
      hother StateApproved (by decide) (by decide), hany]
    simp

/-! ### Recording decisions -/

theorem findReviewPred_true (repoPath filePath : String) (r : FileReview)
    (h : r.path = filePath ∧ r.repo = repoPath) :
    (r.path == filePath && r.repo == repoPath) = true := by
  simp [h.1, h.2]

theorem findReviewPred_false (repoPath filePath : String) (r : FileReview)
    (h : ¬(r.path = filePath ∧ r.repo = repoPath)) :
    (r.path == filePath && r.repo == repoPath) = false := by
  rw [Bool.and_eq_false_iff]
  by_cases hp : r.path = filePath
  · refine Or.inr ?_
    simp only [beq_eq_false_iff_ne, ne_eq]
    exact fun hc => h ⟨hp, hc⟩
  · exact Or.inl (by simp [hp])

theorem setAllEntry_none (repoPath filePath status : String) :
    ∀ reviews : List FileReview,
      setAllEntry repoPath filePath status reviews = none →
        ∀ r ∈ reviews, ¬(r.path = filePath ∧ r.repo = repoPath)
  | [] => by intro _ r hr; cases hr
  | x :: rest => by
    intro h r hr
    unfold setAllEntry at h
    by_cases hx : x.path = filePath ∧ x.repo = repoPath
    · rw [if_pos hx] at h
      cases h
    · rw [if_neg hx] at h
      rw [List.mem_cons] at hr
      rcases hr with rfl | hr
      · exact hx
      · cases hrest : setAllEntry repoPath filePath status rest with
        | some rs => rw [hrest] at h; cases h
        | none => exact setAllEntry_none repoPath filePath status rest hrest r hr

theorem setAllEntry_some_find (repoPath filePath status : String) :
    ∀ reviews rs : List FileReview,
      setAllEntry repoPath filePath status reviews = some rs →
        ∃ fr, findReview rs repoPath filePath = some fr ∧
          alLookup "all" fr.lines = some status
  | [], rs => by intro h; cases h
  | x :: rest, rs => by
    intro h
    unfold setAllEntry at h
    by_cases hx : x.path = filePath ∧ x.repo = repoPath
    · rw [if_pos hx] at h
      injection h with h
      subst h
      refine ⟨{ x with lines := alInsert "all" status x.lines }, ?_, ?_⟩
      · unfold findReview
        exact List.find?_cons_of_pos rest (by simp [hx.1, hx.2])
      · exact alLookup_alInsert_self _ _ _
    · rw [if_neg hx] at h
      cases hrest : setAllEntry repoPath filePath status rest with
      | none => rw [hrest] at h; cases h
      | some rs' =>
        rw [hrest] at h
        injection h with h
        subst h
        obtain ⟨fr, hfind, hlook⟩ := setAllEntry_some_find repoPath filePath status rest rs' hrest
        refine ⟨fr, ?_, hlook⟩
        unfold findReview at hfind ⊢
        rw [List.find?_cons_of_neg _ (by
          rw [findReviewPred_false repoPath filePath x hx]
          simp)]
        exact hfind

theorem recordDecision_find (st : ReviewState) (repoPath filePath status : String) :
    ∃ fr,
      findReview (recordDecision st repoPath filePath status).reviewedFiles repoPath
          filePath = some fr ∧
        alLookup "all" fr.lines = some status := by
  unfold recordDecision
  cases h : setAllEntry repoPath filePath status st.reviewedFiles with
  | some rs =>
    exact setAllEntry_some_find repoPath filePath status st.reviewedFiles rs h
  | none =>
    have hnone := setAllEntry_none repoPath filePath status st.reviewedFiles h
    refine ⟨{ repo := repoPath, path := filePath, lines := [("all", status)] }, ?_, ?_⟩
    · unfold findReview
      rw [List.find?_append]
      have hfind : st.reviewedFiles.find?
          (fun r => r.path == filePath && r.repo == repoPath) = none := by
        rw [List.find?_eq_none]
        intro x hx
        rw [findReviewPred_false repoPath filePath x (hnone x hx)]
        simp
      rw [hfind]
      simp [List.find?]
    · rfl

/-! ### Path joining and cleaning -/

theorem joinSep_cons_cons (sep : Char) (x : List Char) (l : List (List Char))
    (h : l ≠ []) : joinSep sep (x :: l) = x ++ sep :: joinSep sep l := by
  cases l with
  | nil => cases h rfl
  | cons z zs => rfl

theorem joinSep_append (sep : Char) :
    ∀ l₁ l₂ : List (List Char), l₁ ≠ [] → l₂ ≠ [] →
      joinSep sep (l₁ ++ l₂) = joinSep sep l₁ ++ sep :: joinSep sep l₂
  | [], _ => by intro h _; cases h rfl
  | [x], l₂ => by
    intro _ h₂
    rw [List.singleton_append, joinSep_cons_cons sep x l₂ h₂]
    rfl
  | x :: y :: rest, l₂ => by
    intro _ h₂
    rw [List.cons_append,
      joinSep_cons_cons sep x ((y :: rest) ++ l₂) (by simp),
      joinSep_append sep (y :: rest) l₂ (by simp) h₂,
      joinSep_cons_cons sep x (y :: rest) (by simp)]
    simp

theorem splitSep_sep_cons (sep : Char) (cs : List Char) :
    splitSep sep (sep :: cs) = [] :: splitSep sep cs := by
  conv_lhs => unfold splitSep
  rw [if_pos rfl]

theorem splitSep_cons_ne (sep c : Char) (cs : List Char) (h : c ≠ sep) :
    splitSep sep (c :: cs) =
      match splitSep sep cs with
      | [] => [[c]]
      | s :: rest => (c :: s) :: rest := by
  conv_lhs => unfold splitSep
  rw [if_neg h]

theorem splitSep_no_sep (sep : Char) :
    ∀ x : List Char, sep ∉ x → splitSep sep x = [x]
  | [] => by intro _; rfl
  | c :: cs => by
    intro h
    have hc : c ≠ sep := fun hc => h (hc ▸ List.mem_cons_self _ _)
    have hcs : sep ∉ cs := fun hm => h (List.mem_cons_of_mem _ hm)
    rw [splitSep_cons_ne sep c cs hc, splitSep_no_sep sep cs hcs]

theorem splitSep_append_sep (sep : Char) (ys : List Char) :
    ∀ x : List Char, sep ∉ x → splitSep sep (x ++ sep :: ys) = x :: splitSep sep ys
  | [] => by
    intro _
    rw [List.nil_append, splitSep_sep_cons]
  | c :: cs => by
    intro h
    have hc : c ≠ sep := fun hc => h (hc ▸ List.mem_cons_self _ _)
    have hcs : sep ∉ cs := fun hm => h (List.mem_cons_of_mem _ hm)
    rw [List.cons_append, splitSep_cons_ne sep c _ hc,
      splitSep_append_sep sep ys cs hcs]

theorem splitSep_join (sep : Char) :
    ∀ segs : List (List Char), segs ≠ [] → (∀ s ∈ segs, sep ∉ s) →
      splitSep sep (joinSep sep segs) = segs
  | [] => by intro h _; cases h rfl
  | [x] => by
    intro _ h
    exact splitSep_no_sep sep x (h x (List.mem_cons_self _ _))
  | x :: y :: rest => by
    intro _ h
    rw [joinSep_cons_cons sep x (y :: rest) (by simp),
      splitSep_append_sep sep _ x (h x (List.mem_cons_self _ _)),
      splitSep_join sep (y :: rest) (by simp) fun s hs => h s (List.mem_cons_of_mem _ hs)]

theorem foldl_cleanStep_plain (rooted : Bool) :
    ∀ (segs : List (List Char)) (stack : List (List Char)),
      (∀ s ∈ segs, PlainSeg s) →
        segs.foldl (cleanStep rooted) stack = segs.reverse ++ stack
  | [], stack => by intro _; rfl
  | x :: rest, stack => by
    intro h
    have hx := h x (List.mem_cons_self _ _)
    have hstep : cleanStep rooted stack x = x :: stack := by
      unfold cleanStep
      rw [if_neg (by
          intro hc
          rcases hc with hc | hc
          · exact hx.1 hc
          · exact hx.2.2.1 hc),
        if_neg hx.2.2.2]
    rw [List.foldl_cons, hstep,
      foldl_cleanStep_plain rooted rest (x :: stack)
        fun s hs => h s (List.mem_cons_of_mem _ hs)]
    simp

theorem pathCleanChars_canonical (segs : List (List Char)) (hsegs : segs ≠ [])
    (h : ∀ s ∈ segs, PlainSeg s) :
    pathCleanChars ('/' :: joinSep '/' segs) = '/' :: joinSep '/' segs := by
  unfold pathCleanChars
  dsimp only
  have hrooted : isRooted ('/' :: joinSep '/' segs) = true := rfl
  have hsplit : splitSep '/' ('/' :: joinSep '/' segs) = [] :: segs := by
    rw [splitSep_sep_cons, splitSep_join '/' segs hsegs fun s hs => (h s hs).2.1]
  rw [hrooted, hsplit]
  have hfirst : cleanStep true [] ([] : List Char) = [] := by
    unfold cleanStep
    rw [if_pos (Or.inl rfl)]
  rw [List.foldl_cons, hfirst, foldl_cleanStep_plain true segs [] h]
  simp

theorem string_mk_ne_empty (c : Char) (cs : List Char) : String.mk (c :: cs) ≠ "" := by
  intro hc
  have : (String.mk (c :: cs)).data = ("" : String).data := by rw [hc]
  cases this

theorem filepathJoin_canonical (bsegs : List (List Char)) (rest : List String)
    (hbne : bsegs ≠ []) (hb : ∀ s ∈ bsegs, PlainSeg s) (hrne : rest ≠ [])
    (hr : ∀ s ∈ rest, PlainSeg s.data) :
    filepathJoin (String.mk ('/' :: joinSep '/' bsegs) :: rest) =
      String.mk ('/' :: joinSep '/' (bsegs ++ rest.map String.data)) := by
  unfold filepathJoin
  dsimp only
  have hfilter : (String.mk ('/' :: joinSep '/' bsegs) :: rest).filter (fun e => e != "") =
      String.mk ('/' :: joinSep '/' bsegs) :: rest := by
    rw [List.filter_eq_self]
    intro a ha
    rw [List.mem_cons] at ha
    rcases ha with rfl | ha
    · simp only [bne_iff_ne, ne_eq]
      exact string_mk_ne_empty _ _
    · simp only [bne_iff_ne, ne_eq]
      intro hc
      have := (hr a ha).1
      rw [hc] at this
      exact this rfl
  rw [hfilter, if_neg (by simp)]
  have hmap : (String.mk ('/' :: joinSep '/' bsegs) :: rest).map String.data =
      ('/' :: joinSep '/' bsegs) :: rest.map String.data := rfl
  rw [hmap]
  have hrestmapne : rest.map String.data ≠ [] := by
    intro hc
    rw [List.map_eq_nil_iff] at hc
    exact hrne hc
  have hjoin : joinSep '/' (('/' :: joinSep '/' bsegs) :: rest.map String.data) =
      '/' :: joinSep '/' (bsegs ++ rest.map String.data) := by
    rw [joinSep_cons_cons '/' _ _ hrestmapne,
      joinSep_append '/' bsegs (rest.map String.data) hbne hrestmapne]
    rfl
  rw [hjoin]
  unfold pathClean
  rw [show (String.mk ('/' :: joinSep '/' (bsegs ++ rest.map String.data))).data =
      '/' :: joinSep '/' (bsegs ++ rest.map String.data) from rfl]
  rw [pathCleanChars_canonical (bsegs ++ rest.map String.data) (by simp [hbne])
    (by
      intro s hs
      rw [List.mem_append] at hs
      rcases hs with hs | hs
      · exact hb s hs
      · rw [List.mem_map] at hs
        obtain ⟨a, ha, rfl⟩ := hs
        exact hr a ha)]

/-! ### Claim theorems -/

/-- C5: for every key with no persisted ledger file — including when the
source or target commit is the empty string — `LoadReviewState` returns,
without error, a freshly-initialized `ReviewState` with an empty
`reviewedFiles` list carrying the caller-supplied branch and commit
values. -/
theorem claim_C5_load_missing (s : JSONStorage) (store : Store)
    (repoPath sourceBranch targetBranch sourceCommit targetCommit : String)
    (h : sourceCommit = "" ∨ targetCommit = "" ∨
      alLookup (getReviewStatePath s repoPath sourceCommit targetCommit) store = none) :
    LoadReviewState s store repoPath sourceBranch targetBranch sourceCommit targetCommit =
      Except.ok
        { reviewedFiles := [], sourceBranch := sourceBranch, targetBranch := targetBranch,
          sourceCommit := sourceCommit, targetCommit := targetCommit } := by
  unfold LoadReviewState
  by_cases hc : sourceCommit = "" ∨ targetCommit = ""
  · rw [if_pos hc]
    rfl
  · rw [if_neg hc]
    rcases h with h | h | h
    · exact absurd (Or.inl h) hc
    · exact absurd (Or.inr h) hc
    · rw [h]
      rfl

/-- C5 witness: loading a key from an empty store with non-empty commits
yields the fresh empty ledger. -/
theorem claim_C5_witness :
    LoadReviewState { baseStoragePath := "/base", reposPath := "/base/repositories.json" }
        [] "/repo" "feat" "main" "abc" "def" =
      Except.ok
        { reviewedFiles := [], sourceBranch := "feat", targetBranch := "main",
          sourceCommit := "abc", targetCommit := "def" } :=
  claim_C5_load_missing _ _ _ _ _ _ _ (Or.inr (Or.inr rfl))

/-- C6: for every ledger with an empty source or target commit,
`SaveReviewState` fails with the validation error and never returns an
updated store (so nothing is written). -/
theorem claim_C6_save_empty_commit (s : JSONStorage) (store : Store) (state : ReviewState)
    (repoPath : String) (h : state.sourceCommit = "" ∨ state.targetCommit = "") :
    SaveReviewState s store state repoPath =
        Except.error "source and target commit hashes are required" ∧
      ∀ store' : Store, SaveReviewState s store state repoPath ≠ Except.ok store' := by
  unfold SaveReviewState
  rw [if_pos h]
  exact ⟨rfl, fun store' hc => by cases hc⟩

/-- C6 witness: saving a ledger with an empty source commit fails. -/
theorem claim_C6_witness :
    SaveReviewState { baseStoragePath := "/base", reposPath := "/base/repositories.json" }
        []
        { reviewedFiles := [], sourceBranch := "feat", targetBranch := "main",
          sourceCommit := "", targetCommit := "def" }
        "/repo" =
      Except.error "source and target commit hashes are required" :=
  (claim_C6_save_empty_commit _ _ _ _ (Or.inl rfl)).1

/-- C8: for every ledger with non-empty commits, a successful save followed
by a load with the same repository and commit pair reproduces the saved
`ReviewState` exactly (hence in particular the same set of `FileReview`
entries keyed by path). -/
theorem claim_C8_roundtrip (s : JSONStorage) (store store' : Store) (state : ReviewState)
    (repoPath sourceBranch targetBranch : String)
    (h1 : state.sourceCommit ≠ "") (h2 : state.targetCommit ≠ "")
    (h3 : SaveReviewState s store state repoPath = Except.ok store') :
    LoadReviewState s store' repoPath sourceBranch targetBranch state.sourceCommit
        state.targetCommit = Except.ok state := by
  have hc : ¬(state.sourceCommit = "" ∨ state.targetCommit = "") := by
    intro hc
    rcases hc with hc | hc
    · exact h1 hc
    · exact h2 hc
  unfold SaveReviewState at h3
  rw [if_neg hc] at h3
  injection h3 with h3
  subst h3
  unfold LoadReviewState
  rw [if_neg hc, alLookup_alInsert_self]

/-- C8 witness: a concrete save/load round-trip returns the saved ledger. -/
theorem claim_C8_witness :
    LoadReviewState { baseStoragePath := "/base", reposPath := "/base/repositories.json" }
        [("/base/_repo/abc/def/review-state.json",
          { reviewedFiles := [{ repo := "/repo", path := "f.txt", lines := [("all", "approved")] }],
            sourceBranch := "feat", targetBranch := "main",
            sourceCommit := "abc", targetCommit := "def" })]
        "/repo" "x" "y" "abc" "def" =
      Except.ok
        { reviewedFiles := [{ repo := "/repo", path := "f.txt", lines := [("all", "approved")] }],
          sourceBranch := "feat", targetBranch := "main",
          sourceCommit := "abc", targetCommit := "def" } :=
  claim_C8_roundtrip
    { baseStoragePath := "/base", reposPath := "/base/repositories.json" } []
    [("/base/_repo/abc/def/review-state.json",
      { reviewedFiles := [{ repo := "/repo", path := "f.txt", lines := [("all", "approved")] }],
        sourceBranch := "feat", targetBranch := "main",
        sourceCommit := "abc", targetCommit := "def" })]
    { reviewedFiles := [{ repo := "/repo", path := "f.txt", lines := [("all", "approved")] }],
      sourceBranch := "feat", targetBranch := "main",
      sourceCommit := "abc", targetCommit := "def" }
    "/repo" "x" "y" (by decide) (by decide) (by decide)

/-- C2 counterexample: a persisted ledger document carrying the Decision
value "bogus" — outside the closed set — is returned by `LoadReviewState`
as a successful result containing that value, not as an error, refuting
the claim that loading surfaces an integrity error. -/
theorem claim_C2_counterexample :
    LoadReviewState { baseStoragePath := "/base", reposPath := "/base/repositories.json" }
        [(getReviewStatePath
            { baseStoragePath := "/base", reposPath := "/base/repositories.json" }
            "/repo" "abc" "def",
          { reviewedFiles := [{ repo := "/repo", path := "f.txt", lines := [("all", "bogus")] }],
            sourceBranch := "feat", targetBranch := "main",
            sourceCommit := "abc", targetCommit := "def" })]
        "/repo" "feat" "main" "abc" "def" =
      Except.ok
        { reviewedFiles := [{ repo := "/repo", path := "f.txt", lines := [("all", "bogus")] }],
          sourceBranch := "feat", targetBranch := "main",
          sourceCommit := "abc", targetCommit := "def" } ∧
    "bogus" ∉ decisionLiterals := by
  constructor
  · decide
  · decide

/-- C2 amended: loading a persisted ledger document with non-empty commits
returns the stored document unchanged and without error, whatever decision
strings it contains — no validation happens at the deserialization
boundary. -/
theorem claim_C2_amended (s : JSONStorage) (store : Store)
    (repoPath sourceBranch targetBranch sourceCommit targetCommit : String)
    (state : ReviewState) (h1 : sourceCommit ≠ "") (h2 : targetCommit ≠ "")
    (h3 : alLookup (getReviewStatePath s repoPath sourceCommit targetCommit) store =
      some state) :
    LoadReviewState s store repoPath sourceBranch targetBranch sourceCommit targetCommit =
      Except.ok state := by
  unfold LoadReviewState
  rw [if_neg (by
      intro hc
      rcases hc with hc | hc
      · exact h1 hc
      · exact h2 hc),
    h3]

/-- C2 amended witness: the stored document with the out-of-set value
"bogus" is returned as-is. -/
theorem claim_C2_amended_witness :
    LoadReviewState { baseStoragePath := "/b", reposPath := "/b/repositories.json" }
        [("/b/r/a/b/review-state.json",
          { reviewedFiles := [{ repo := "r", path := "f", lines := [("1", "bogus")] }],
            sourceBranch := "s", targetBranch := "t",
            sourceCommit := "a", targetCommit := "b" })]
        "r" "s" "t" "a" "b" =
      Except.ok
        { reviewedFiles := [{ repo := "r", path := "f", lines := [("1", "bogus")] }],
          sourceBranch := "s", targetBranch := "t",
          sourceCommit := "a", targetCommit := "b" } :=
  claim_C2_amended _ _ "r" "s" "t" "a" "b" _ (by decide) (by decide) (by decide)

/-- C4: recording a decision d₁ and then a decision d₂ for the same
repository and path leaves the "all" range entry of the (first) matching
`FileReview` equal to d₂ — overwrite, not accumulation; and concretely,
recording approved then rejected on a fresh ledger and aggregating reports
the file as rejected. -/
theorem claim_C4_overwrite :
    (∀ (st : ReviewState) (repoPath filePath d₁ d₂ : String),
      ∃ fr,
        findReview
            (recordDecision (recordDecision st repoPath filePath d₁) repoPath filePath
                d₂).reviewedFiles
            repoPath filePath = some fr ∧
          alLookup "all" fr.lines = some d₂) ∧
    extractFilesFromDiff "diff --git a/p.txt b/p.txt"
        (recordDecision
          (recordDecision
            { reviewedFiles := [], sourceBranch := "s", targetBranch := "t",
              sourceCommit := "sc", targetCommit := "tc" }
            "r" "p.txt" StateApproved)
          "r" "p.txt" StateRejected)
        "r" =
      [("p.txt", StateRejected)] :=
  ⟨fun _ repoPath filePath _ d₂ => recordDecision_find _ repoPath filePath d₂, by decide⟩

/-- C9: the parser is total, and (i) a line that is not a well-formed
header — in particular a line starting with the header marker but with
fewer than four space-separated pieces or whose fourth piece does not start
with "b/" — emits nothing without aborting the scan; (ii) a well-formed
header emits the fourth piece with the two-character "b/" marker removed;
(iii) a diff text with zero well-formed headers yields an empty file list;
(iv) every well-formed header line of the diff contributes its path to the
output. -/
theorem claim_C9_parse_behavior :
    (∀ line : List Char, ¬WellFormedHeader line → headerPath line = none) ∧
    (∀ (line t : List Char), diffHeaderMarker.isPrefixOf line = true →
      (splitSep ' ' line).get? 3 = some t → ['b', '/'].isPrefixOf t = true →
      headerPath line = some (t.drop 2)) ∧
    (∀ (d : String) (st : ReviewState) (repoPath : String),
      (∀ line ∈ splitSep '\n' d.data, ¬WellFormedHeader line) →
      extractFilesFromDiff d st repoPath = []) ∧
    (∀ (d : String) (st : ReviewState) (repoPath : String) (line t : List Char),
      line ∈ splitSep '\n' d.data → diffHeaderMarker.isPrefixOf line = true →
      (splitSep ' ' line).get? 3 = some t → ['b', '/'].isPrefixOf t = true →
      ∃ s, (String.mk (t.drop 2), s) ∈ extractFilesFromDiff d st repoPath) := by
  have hWF : ∀ line t : List Char, diffHeaderMarker.isPrefixOf line = true →
      (splitSep ' ' line).get? 3 = some t → ['b', '/'].isPrefixOf t = true →
      headerPath line = some (t.drop 2) := by
    intro line t hpre hget hbp
    unfold headerPath
    rw [if_pos hpre]
    rcases hsplit : splitSep ' ' line with _ | ⟨a, _ | ⟨b, _ | ⟨c, _ | ⟨t', rest⟩⟩⟩⟩
    · rw [hsplit] at hget
      simp at hget
    · rw [hsplit] at hget
      simp at hget
    · rw [hsplit] at hget
      simp at hget
    · rw [hsplit] at hget
      simp at hget
    · rw [hsplit] at hget
      simp only [List.get?_cons_succ, List.get?_cons_zero] at hget
      injection hget with hget
      subst hget
      dsimp only
      rw [if_pos hbp]
  have hNone : ∀ line : List Char, ¬WellFormedHeader line → headerPath line = none := by
    intro line hnot
    unfold headerPath
    by_cases hpre : diffHeaderMarker.isPrefixOf line = true
    · rw [if_pos hpre]
      rcases hsplit : splitSep ' ' line with _ | ⟨a, _ | ⟨b, _ | ⟨c, _ | ⟨t, rest⟩⟩⟩⟩
      · rfl
      · rfl
      · rfl
      · rfl
      · dsimp only
        rw [if_neg (show ¬(['b', '/'].isPrefixOf t = true) from fun hbp =>
          hnot ⟨hpre, t, by rw [hsplit]; rfl, hbp⟩)]
    · rw [if_neg hpre]
  refine ⟨hNone, hWF, ?_, ?_⟩
  · intro d st repoPath h
    rw [extractFilesFromDiff_eq]
    have : ((splitSep '\n' d.data).filterMap fun line =>
        (headerPath line).map fun p =>
          (String.mk p,
            (alLookup (String.mk p) (buildFileStatusMap st.reviewedFiles repoPath)).getD
              "unreviewed")) = [] := by
      rw [List.filterMap_eq_nil_iff]
      intro line hline
      rw [hNone line (h line hline)]
      rfl
    rw [this]
    rfl
  · intro d st repoPath line t hline hpre hget hbp
    exact ⟨_, extract_emits d st repoPath line (t.drop 2) hline (hWF line t hpre hget hbp)⟩

/-- C9 witness: a diff text whose only marker-bearing lines are malformed
(three pieces only, or a fourth piece without the "b/" marker) parses to
the empty list, and a concrete well-formed header emits its path. -/
theorem claim_C9_witness :
    extractFilesFromDiff "diff --git onlythree\ndiff --git a/x c/x\nplain text"
        { reviewedFiles := [], sourceBranch := "s", targetBranch := "t",
          sourceCommit := "sc", targetCommit := "tc" }
        "r" = [] ∧
    headerPath "diff --git a/x b/y.txt".data = some "y.txt".data := by
  constructor
  · exact claim_C9_parse_behavior.2.2.1 "diff --git onlythree\ndiff --git a/x c/x\nplain text"
      { reviewedFiles := [], sourceBranch := "s", targetBranch := "t",
        sourceCommit := "sc", targetCommit := "tc" }
      "r" (by decide)
  · exact claim_C9_parse_behavior.2.1 "diff --git a/x b/y.txt".data "b/y.txt".data (by decide)
      (by decide) (by decide)

/-- C3: the aggregated output is sorted by status priority ascending —
with the priorities unreviewed 0, skipped 1, rejected 2, approved 3 — with
ascending path as the tie-break among equal priorities; and on the files
b.txt (approved), a.txt (unreviewed), c.txt (skipped) the output order is
a.txt, c.txt, b.txt. -/
theorem claim_C3_ordering :
    (∀ (d : String) (st : ReviewState) (repoPath : String),
      (extractFilesFromDiff d st repoPath).Pairwise fun a b =>
        statusPriority a.2 < statusPriority b.2 ∨
          (statusPriority a.2 = statusPriority b.2 ∧ listLT b.1.data a.1.data = false)) ∧
    (statusPriority "unreviewed" = 0 ∧ statusPriority StateSkipped = 1 ∧
      statusPriority StateRejected = 2 ∧ statusPriority StateApproved = 3) ∧
    extractFilesFromDiff
        "diff --git a/b.txt b/b.txt\ndiff --git a/a.txt b/a.txt\ndiff --git a/c.txt b/c.txt"
        { reviewedFiles :=
            [{ repo := "r", path := "b.txt", lines := [("all", "approved")] },
             { repo := "r", path := "c.txt", lines := [("all", "skipped")] }],
          sourceBranch := "s", targetBranch := "t",
          sourceCommit := "sc", targetCommit := "tc" }
        "r" =
      [("a.txt", "unreviewed"), ("c.txt", "skipped"), ("b.txt", "approved")] := by
  refine ⟨?_, by decide, by decide⟩
  intro d st repoPath
  rw [extractFilesFromDiff_eq]
  exact List.sorted_insertionSort fileLE _

/-- C1 counterexample: a ledger whose only review for p.txt carries the two
distinct Decisions approved and rejected; the aggregated list derives the
status "rejected" for p.txt, not "mixed" as the claim requires. -/
theorem claim_C1_counterexample :
    extractFilesFromDiff "diff --git a/p.txt b/p.txt"
        { reviewedFiles :=
            [{ repo := "r", path := "p.txt", lines := [("1", "approved"), ("2", "rejected")] }],
          sourceBranch := "s", targetBranch := "t",
          sourceCommit := "sc", targetCommit := "tc" }
        "r" =
      [("p.txt", "rejected")] ∧
    ("p.txt", "mixed") ∉
      extractFilesFromDiff "diff --git a/p.txt b/p.txt"
        { reviewedFiles :=
            [{ repo := "r", path := "p.txt", lines := [("1", "approved"), ("2", "rejected")] }],
          sourceBranch := "s", targetBranch := "t",
          sourceCommit := "sc", targetCommit := "tc" }
        "r" := by
  constructor
  · decide
  · decide

/-- C1 amended: in the aggregated list, a file with no matching review is
"unreviewed" and no file is ever "mixed"; the status of a file with a
(unique) matching review is that review's derived status, which picks the
highest-priority Decision present among the range values — rejected over
approved over skipped, defaulting to "unreviewed" — so that when exactly
one distinct Decision value is present the status is that value, and a
review containing any rejected entry is always "rejected". -/
theorem claim_C1_amended :
    (∀ (d : String) (st : ReviewState) (repoPath p s : String),
      (p, s) ∈ extractFilesFromDiff d st repoPath →
        ((∀ r ∈ st.reviewedFiles, ¬(r.repo = repoPath ∧ r.path = p)) → s = "unreviewed") ∧
          s ≠ "mixed") ∧
    (∀ (d : String) (st : ReviewState) (repoPath p s : String) (r : FileReview),
      UniqueReviews st repoPath → (p, s) ∈ extractFilesFromDiff d st repoPath →
        r ∈ st.reviewedFiles → r.repo = repoPath → r.path = p → s = fileReviewStatus r) ∧
    (∀ (review : FileReview) (v : String), v ∈ decisionLiterals →
      (∃ kv ∈ review.lines, kv.2 = v) →
      (∀ kv ∈ review.lines, kv.2 ∈ decisionLiterals → kv.2 = v) →
      fileReviewStatus review = v) ∧
    (∀ review : FileReview, (∃ kv ∈ review.lines, kv.2 = StateRejected) →
      fileReviewStatus review = StateRejected) := by
  refine ⟨?_, ?_, fileReviewStatus_single, ?_⟩
  · intro d st repoPath p s hmem
    have hs := mem_extract_status d st repoPath p s hmem
    rw [buildFileStatusMap_eq] at hs
    constructor
    · intro habs
      rw [(lastMatching_eq_none repoPath p st.reviewedFiles).2
        (fun r hr => habs r hr)] at hs
      exact hs
    · cases hlast : lastMatching repoPath p st.reviewedFiles with
      | none =>
        rw [hlast] at hs
        rw [hs]
        decide
      | some r =>
        rw [hlast] at hs
        rw [hs]
        exact fileReviewStatus_ne_mixed r
  · intro d st repoPath p s r huniq hmem hr hrepo hpath
    have hs := mem_extract_status d st repoPath p s hmem
    rw [buildFileStatusMap_eq] at hs
    cases hlast : lastMatching repoPath p st.reviewedFiles with
    | none =>
      have := (lastMatching_eq_none repoPath p st.reviewedFiles).1 hlast r hr
      exact absurd ⟨hrepo, hpath⟩ this
    | some r' =>
      have hprops := lastMatching_eq_some repoPath p st.reviewedFiles r' hlast
      have : r' = r := huniq r' hprops.1 r hr hprops.2.1 hrepo (hprops.2.2.trans hpath.symm)
      rw [hlast, this] at hs
      exact hs
  · intro review hex
    unfold fileReviewStatus
    dsimp only
    have hany : review.lines.any (fun kv => kv.2 == StateRejected) = true := by
      rw [List.any_eq_true]
      obtain ⟨kv, hkv, hkv2⟩ := hex
      exact ⟨kv, hkv, by simp [hkv2]⟩
    rw [hany]
    simp

/-- C1 amended witness: on a concrete diff and ledger the theorem derives
that b.txt, whose unique review records only approved, reports status
approved. -/
theorem claim_C1_witness :
    ("b.txt", "approved") ∈
      extractFilesFromDiff
        "diff --git a/b.txt b/b.txt\ndiff --git a/a.txt b/a.txt"
        { reviewedFiles := [{ repo := "r", path := "b.txt", lines := [("all", "approved")] }],
          sourceBranch := "s", targetBranch := "t",
          sourceCommit := "sc", targetCommit := "tc" }
        "r" ∧
    "approved" =
      fileReviewStatus { repo := "r", path := "b.txt", lines := [("all", "approved")] } :=
  ⟨by decide,
    claim_C1_amended.2.1 "diff --git a/b.txt b/b.txt\ndiff --git a/a.txt b/a.txt"
      { reviewedFiles := [{ repo := "r", path := "b.txt", lines := [("all", "approved")] }],
        sourceBranch := "s", targetBranch := "t",
        sourceCommit := "sc", targetCommit := "tc" }
      "r" "b.txt" "approved"
      { repo := "r", path := "b.txt", lines := [("all", "approved")] }
      (by decide) (by decide) (by decide) (by decide) (by decide)⟩

/-- C10: a review for a changed file whose non-empty lines map contains
none of the three Decision literals makes the aggregated list report the
file as "unreviewed", and the whole aggregated output equals the one
obtained after deleting every ledger entry for that file: exactly as if the
file had no ledger entry at all. The data-model invariant (at most one
review per repository and path) is assumed. -/
theorem claim_C10_unknown_values (d : String) (st : ReviewState) (repoPath : String)
    (r : FileReview) (huniq : UniqueReviews st repoPath) (hr : r ∈ st.reviewedFiles)
    (hrepo : r.repo = repoPath) (hne : r.lines ≠ [])
    (hbad : ∀ kv ∈ r.lines, kv.2 ∉ decisionLiterals) :
    extractFilesFromDiff d st repoPath =
        extractFilesFromDiff d
          { st with
            reviewedFiles :=
              st.reviewedFiles.filter fun x => !(x.repo == repoPath && x.path == r.path) }
          repoPath ∧
      ∀ s, (r.path, s) ∈ extractFilesFromDiff d st repoPath → s = "unreviewed" := by
  have hstatus : fileReviewStatus r = "unreviewed" := fileReviewStatus_no_decision r hbad
  have hlastp : ∀ q : String,
      (alLookup q (buildFileStatusMap st.reviewedFiles repoPath)).getD "unreviewed" =
        (alLookup q
            (buildFileStatusMap
              (st.reviewedFiles.filter fun x => !(x.repo == repoPath && x.path == r.path))
              repoPath)).getD
          "unreviewed" := by
    intro q
    rw [buildFileStatusMap_eq, buildFileStatusMap_eq]
    by_cases hq : q = r.path
    · have hfiltered : lastMatching repoPath q
          (st.reviewedFiles.filter fun x => !(x.repo == repoPath && x.path == r.path)) =
            none := by
        rw [lastMatching_eq_none]
        intro x hx hc
        rw [List.mem_filter] at hx
        have hx2 := hx.2
        rw [Bool.not_eq_true', Bool.and_eq_false_iff] at hx2
        rcases hx2 with hfalse | hfalse <;> simp only [beq_eq_false_iff_ne] at hfalse
        · exact hfalse hc.1
        · exact hfalse (hq ▸ hc.2)
      rw [hfiltered]
      cases hlast : lastMatching repoPath q st.reviewedFiles with
      | none => rfl
      | some r' =>
        have hprops := lastMatching_eq_some repoPath q st.reviewedFiles r' hlast
        have : r' = r := huniq r' hprops.1 r hr hprops.2.1 hrepo (hprops.2.2.trans hq)
        rw [this]
        simp [hstatus]
    · rw [lastMatching_filter_other repoPath q r.path st.reviewedFiles hq]
  refine ⟨extract_congr d st _ repoPath hlastp, ?_⟩
  intro s hmem
  have hs := mem_extract_status d st repoPath r.path s hmem
  rw [buildFileStatusMap_eq] at hs
  cases hlast : lastMatching repoPath r.path st.reviewedFiles with
  | none =>
    rw [hlast] at hs
    exact hs
  | some r' =>
    have hprops := lastMatching_eq_some repoPath r.path st.reviewedFiles r' hlast
    have : r' = r := huniq r' hprops.1 r hr hprops.2.1 hrepo hprops.2.2
    rw [hlast, this] at hs
    rw [hs]
    simp [hstatus]

/-- C10 witness: a review with only the unknown value "wip" yields the same
output as no entry, namely status unreviewed. -/
theorem claim_C10_witness :
    extractFilesFromDiff "diff --git a/p.txt b/p.txt"
        { reviewedFiles := [{ repo := "r", path := "p.txt", lines := [("all", "wip")] }],
          sourceBranch := "s", targetBranch := "t",
          sourceCommit := "sc", targetCommit := "tc" }
        "r" =
      extractFilesFromDiff "diff --git a/p.txt b/p.txt"
        { reviewedFiles :=
            ([{ repo := "r", path := "p.txt", lines := [("all", "wip")] }].filter
              fun x => !(x.repo == "r" && x.path == "p.txt")),
          sourceBranch := "s", targetBranch := "t",
          sourceCommit := "sc", targetCommit := "tc" }
        "r" :=
  (claim_C10_unknown_values "diff --git a/p.txt b/p.txt"
      { reviewedFiles := [{ repo := "r", path := "p.txt", lines := [("all", "wip")] }],
        sourceBranch := "s", targetBranch := "t",
        sourceCommit := "sc", targetCommit := "tc" }
      "r" { repo := "r", path := "p.txt", lines := [("all", "wip")] }
      (by decide) (by decide) (by decide) (by decide) (by decide)).1

/-- C7: for a canonical absolute storage root, the ledger location is the
root, then the path-safe repository token, then the source commit, then the
target commit, ending in the fixed filename review-state.json, each as a
nested path segment; and the path-safe token is the repository identifier
with every path-separator and colon character replaced by an underscore.
Commit tokens and the repository token are assumed to be plain segments
(non-empty, separator-free and not a dot segment), as commit hashes and
escaped repository identifiers are. -/
theorem claim_C7_storage_path
    (baseStoragePath reposPath repoPath sourceCommit targetCommit : String)
    (bsegs : List (List Char)) (hbne : bsegs ≠ []) (hb : ∀ s ∈ bsegs, PlainSeg s)
    (hbase : baseStoragePath = String.mk ('/' :: joinSep '/' bsegs))
    (hrepo : PlainSeg (pathSafe repoPath).data)
    (hsrc : PlainSeg sourceCommit.data) (htgt : PlainSeg targetCommit.data) :
    getReviewStatePath { baseStoragePath := baseStoragePath, reposPath := reposPath }
        repoPath sourceCommit targetCommit =
      baseStoragePath ++ "/" ++ pathSafe repoPath ++ "/" ++ sourceCommit ++ "/" ++
        targetCommit ++ "/" ++ "review-state.json" ∧
    (pathSafe repoPath).data =
      repoPath.data.map fun c => if c = '/' ∨ c = ':' then '_' else c := by
  constructor
  · subst hbase
    unfold getReviewStatePath
    dsimp only
    rw [filepathJoin_canonical bsegs [pathSafe repoPath, sourceCommit, targetCommit] hbne hb
      (by simp)
      (by
        intro s hs
        simp only [List.mem_cons, List.not_mem_nil, or_false] at hs
        rcases hs with rfl | rfl | rfl
        · exact hrepo
        · exact hsrc
        · exact htgt)]
    rw [show ([pathSafe repoPath, sourceCommit, targetCommit].map String.data) =
      [(pathSafe repoPath).data, sourceCommit.data, targetCommit.data] from rfl]
    rw [filepathJoin_canonical
      (bsegs ++ [(pathSafe repoPath).data, sourceCommit.data, targetCommit.data])
      ["review-state.json"] (by simp) ?hall (by simp) ?hrsj]
    case hall =>
      intro s hs
      rw [List.mem_append] at hs
      rcases hs with hs | hs
      · exact hb s hs
      · simp only [List.mem_cons, List.not_mem_nil, or_false] at hs
        rcases hs with rfl | rfl | rfl
        · exact hrepo
        · exact hsrc
        · exact htgt
    case hrsj =>
      intro s hs
      simp only [List.mem_cons, List.not_mem_nil, or_false] at hs
      subst hs
      decide
    rw [show (["review-state.json"].map String.data) = ["review-state.json".data] from rfl]
    apply String.ext
    have hdata : ∀ x y : String, (x ++ y).data = x.data ++ y.data := fun _ _ => rfl
    have hmk : ∀ l : List Char, (String.mk l).data = l := fun _ => rfl
    have hslash : ("/" : String).data = ['/'] := rfl
    have hsingle : ∀ s : List Char, joinSep '/' [s] = s := fun _ => rfl
    rw [hmk, joinSep_append '/'
        (bsegs ++ [(pathSafe repoPath).data, sourceCommit.data, targetCommit.data])
        ["review-state.json".data] (by simp) (by simp),
      joinSep_append '/' bsegs
        [(pathSafe repoPath).data, sourceCommit.data, targetCommit.data] hbne (by simp),
      joinSep_cons_cons '/' (pathSafe repoPath).data [sourceCommit.data, targetCommit.data]
        (by simp),
      joinSep_cons_cons '/' sourceCommit.data [targetCommit.data] (by simp)]
    simp only [hdata, hmk, hslash, hsingle]
    simp [List.append_assoc]
  · have hfun : ∀ c : Char,
        (if (if c = '/' then '_' else c) = ':' then '_' else if c = '/' then '_' else c) =
          (if c = '/' ∨ c = ':' then '_' else c) := by
      intro c
      by_cases h1 : c = '/'
      · subst h1
        decide
      · by_cases h2 : c = ':'
        · subst h2
          decide
        · simp [h1, h2]
    show ((repoPath.data.map fun c => if c = '/' then '_' else c).map
        fun c => if c = ':' then '_' else c) = _
    rw [List.map_map]
    have : ((fun c => if c = ':' then '_' else c) ∘ fun c => if c = '/' then '_' else c) =
        fun c => if c = '/' ∨ c = ':' then '_' else c := by
      funext c
      exact hfun c
    rw [this]

/-- C7 witness: a concrete storage root, repository identifier containing a
separator and a colon, and commit pair produce the expected nested
location. -/
theorem claim_C7_witness :
    getReviewStatePath
        { baseStoragePath := "/home/u/.diffty", reposPath := "/home/u/.diffty/repositories.json" }
        "/path/to:repo" "abc123" "def456" =
      "/home/u/.diffty" ++ "/" ++ pathSafe "/path/to:repo" ++ "/" ++ "abc123" ++ "/" ++
        "def456" ++ "/" ++ "review-state.json" :=
  (claim_C7_storage_path "/home/u/.diffty" "/home/u/.diffty/repositories.json" "/path/to:repo"
      "abc123" "def456" ["home".data, "u".data, ".diffty".data] (by decide) (by decide)
      (by decide) (by decide) (by decide) (by decide)).1

end Diffty
